import Mathlib

/-!
Verification of the BLK-to-JSON converter (`src/main.rs`).

The development shallowly embeds the two core functions of the source —
`extract_block` and `parse_input` — over `List Char` and `String`.  Machine
details that the claims depend on are modelled faithfully:

* the `regex` patterns compiled in the source are specialised into
  deterministic character-list matchers (the concrete patterns have no
  observable nondeterminism except one `\s*([^;]+);` corner, which is modelled
  explicitly);
* `f64` coordinate values are represented as exact unreduced fractions: the
  accepted input grammar mirrors `str::parse::<f64>`, while IEEE-754 rounding
  is not modelled (no claim distinguishes a value from its exact fraction,
  and shapes are only built from, and compared at, identical numeral text);
* `BTreeMap<String, Shape>` is an association list kept sorted by the string
  order (Rust orders `String` by UTF-8 bytes, which coincides with the
  character/code-point order used here);
* `.unwrap()` panics and byte-slicing panics are modelled as distinguished
  results (`Option.none` / `PResult.panic`), since several claims are about
  whether a failure is a catchable error or an abort;
* `mat.end()` in `extract_block` is a byte offset into the UTF-8 text which
  the source reuses both as an index into its `Vec<char>` and as a byte
  slicing bound; the embedding reproduces this byte/character mixing.
-/

set_option maxRecDepth 100000

namespace BlkJson

/-- ASCII whitespace, as matched by the regex class `\s` and stripped by
`str::trim` (the additional Unicode whitespace code points recognised by Rust
are not modelled; no claim involves them). -/
def isWs (c : Char) : Bool :=
  c = ' ' || c = '\t' || c = '\n' || c = '\r' || c = '\x0b' || c = '\x0c'

/-- ASCII lower-casing, modelling the case folding done by the `(?i)` flag on
the record patterns (Unicode simple folding of non-ASCII letters is not
modelled; no claim involves such characters in pattern positions). -/
def lowerA (c : Char) : Char :=
  if 'A' ≤ c ∧ c ≤ 'Z' then Char.ofNat (c.toNat + 32) else c

/-- Strip the literal `lit` (case-sensitively) from the front of `s`. -/
def dropLit : List Char → List Char → Option (List Char)
  | [], s => some s
  | _, [] => none
  | a :: la, b :: lb => if a = b then dropLit la lb else none

/-- Strip the literal `lit` from the front of `s`, comparing characters
case-insensitively (ASCII), as the `(?i)` patterns do. -/
def dropLitCI : List Char → List Char → Option (List Char)
  | [], s => some s
  | _, [] => none
  | a :: la, b :: lb => if lowerA a = lowerA b then dropLitCI la lb else none

/-- `str::trim` on a character list (ASCII whitespace). -/
def trimL (l : List Char) : List Char :=
  ((l.dropWhile isWs).reverse.dropWhile isWs).reverse

/-- Rust `str::split(',')`: the empty string yields one empty piece, and each
`,` starts a new piece. -/
def splitOnComma : List Char → List (List Char)
  | [] => [[]]
  | c :: rest =>
    if c = ',' then [] :: splitOnComma rest
    else
      match splitOnComma rest with
      | h :: t => (c :: h) :: t
      | [] => [[c]]

/-- An exact fraction `num / den`.  Values are compared structurally: every
claim only ever compares shapes built from identical coordinate text, for
which the representations coincide. -/
structure MyRat where
  num : Int
  den : Nat
deriving DecidableEq

/-- The value carried by a parsed `f64` coordinate. -/
inductive FVal where
  | finite (v : MyRat)
  | inf
  | negInf
  | nan
deriving DecidableEq

def digitVal (c : Char) : Nat := c.toNat - '0'.toNat

def isDigit (c : Char) : Bool := '0' ≤ c && c ≤ '9'

/-- Decimal value of a digit string (most significant digit first). -/
def decDigits (l : List Char) : Nat := l.foldl (fun a c => a * 10 + digitVal c) 0

/-- Finish parsing a float after the mantissa digits: an optional exponent
part, which must consume the whole remaining input. -/
def finishNumber (sign : Int) (intD frD rest : List Char) : Option FVal :=
  let mant : Int := sign * (decDigits intD * 10 ^ frD.length + decDigits frD)
  match rest with
  | [] => some (.finite ⟨mant, 10 ^ frD.length⟩)
  | e :: r =>
    if e = 'e' ∨ e = 'E' then
      let sr : Int × List Char :=
        match r with
        | '+' :: r2 => (1, r2)
        | '-' :: r2 => (-1, r2)
        | _ => (1, r)
      let expD := sr.2.takeWhile isDigit
      let r3 := sr.2.dropWhile isDigit
      if expD.isEmpty ∨ ¬ r3.isEmpty then none
      else
        let k := decDigits expD
        if sr.1 ≥ 0 then some (.finite ⟨mant * 10 ^ k, 10 ^ frD.length⟩)
        else some (.finite ⟨mant, 10 ^ frD.length * 10 ^ k⟩)
    else none

/-- Parse the number forms of the `f64` grammar after an optional sign:
`Digits '.'? Digits? Exp?` or `'.' Digits Exp?`. -/
def parseNumber (sign : Int) (l : List Char) : Option FVal :=
  let intD := l.takeWhile isDigit
  let r1 := l.dropWhile isDigit
  match intD, r1 with
  | [], '.' :: r2 =>
    let frD := r2.takeWhile isDigit
    let r3 := r2.dropWhile isDigit
    if frD.isEmpty then none else finishNumber sign [] frD r3
  | [], _ => none
  | iD, '.' :: r2 =>
    let frD := r2.takeWhile isDigit
    let r3 := r2.dropWhile isDigit
    finishNumber sign iD frD r3
  | iD, r => finishNumber sign iD [] r

/-- Does `s` equal `pat` up to ASCII case? -/
def eqCI (pat s : List Char) : Bool :=
  match dropLitCI pat s with
  | some [] => true
  | _ => false

/-- `str::parse::<f64>`: optional sign, then `inf`/`infinity`/`nan`
(case-insensitive) or a decimal number with optional fraction and exponent.
The numeric value is kept as an exact fraction. -/
def rustParseF64 (l : List Char) : Option FVal :=
  let sr : Int × List Char :=
    match l with
    | '+' :: r => (1, r)
    | '-' :: r => (-1, r)
    | _ => (1, l)
  if eqCI "inf".data sr.2 || eqCI "infinity".data sr.2 then
    some (if sr.1 ≥ 0 then .inf else .negInf)
  else if eqCI "nan".data sr.2 then some .nan
  else parseNumber sr.1 sr.2

end BlkJson

namespace BlkJson

/-- The two capture groups of one line-record match. -/
structure LineCap where
  coords : List Char
  moveB : List Char
deriving DecidableEq

/-- One attempt of the line pattern
`(?i)line\s*\{line:p4=([^;]+);move:b=(true|false);\}` at the current
position.  On success, returns the captures and the rest of the text after
the match.  The pattern is deterministic: `\s*` is followed by `{` (not
whitespace), `[^;]+` must run exactly up to the next `;`, and the two
alternation branches differ at their first character. -/
def tryLineAt (s : List Char) : Option (LineCap × List Char) := do
  let s1 ← dropLitCI "line".data s
  let s2 := s1.dropWhile isWs
  let s3 ← dropLitCI "\x7bline:p4=".data s2
  let seg := s3.takeWhile (fun c => c ≠ ';')
  match s3.drop seg.length with
  | ';' :: s5 =>
    if seg.isEmpty then none
    else do
      let s6 ← dropLitCI "move:b=".data s5
      let bs : Option (List Char × List Char) :=
        match dropLitCI "true".data s6 with
        | some r => some (s6.take 4, r)
        | none =>
          match dropLitCI "false".data s6 with
          | some r => some (s6.take 5, r)
          | none => none
      let (b, s7) ← bs
      match s7 with
      | ';' :: '}' :: s8 => some (⟨seg, b⟩, s8)
      | _ => none
  | _ => none

/-- The four capture groups of one quad-record match. -/
structure QuadCap where
  tl : List Char
  tr : List Char
  br : List Char
  bl : List Char
deriving DecidableEq

/-- One quad field `LABEL\s*=\s*([^;]+);`.  The run between `=` and the next
`;` is fixed by the text; leftmost-first semantics splits it between the
greedy `\s*` and `[^;]+`: the capture is everything after the maximal
whitespace prefix, except that when the whole run is whitespace the engine
backs `\s*` off by one character, capturing just the last whitespace
character. -/
def matchField (label : List Char) (s : List Char) : Option (List Char × List Char) := do
  let s1 ← dropLitCI label s
  let s2 := s1.dropWhile isWs
  match s2 with
  | '=' :: s3 =>
    let seg := s3.takeWhile (fun c => c ≠ ';')
    match s3.drop seg.length with
    | ';' :: s4 =>
      if h : seg = [] then none
      else
        let cap := if (seg.dropWhile isWs).isEmpty then [seg.getLast h] else seg.dropWhile isWs
        some (cap, s4)
    | _ => none
  | _ => none

/-- One attempt of the quad pattern
`(?i)quad\s*\{tl:p2\s*=\s*([^;]+);\s*tr:p2\s*=\s*([^;]+);\s*br:p2\s*=\s*([^;]+);\s*bl:p2\s*=\s*([^;]+);\}`
at the current position. -/
def tryQuadAt (s : List Char) : Option (QuadCap × List Char) := do
  let s1 ← dropLitCI "quad".data s
  let s2 := s1.dropWhile isWs
  match s2 with
  | '{' :: s3 => do
    let (c1, s4) ← matchField "tl:p2".data s3
    let (c2, s5) ← matchField "tr:p2".data (s4.dropWhile isWs)
    let (c3, s6) ← matchField "br:p2".data (s5.dropWhile isWs)
    let (c4, s7) ← matchField "bl:p2".data (s6.dropWhile isWs)
    match s7 with
    | '}' :: s8 => some (⟨c1, c2, c3, c4⟩, s8)
    | _ => none
  | _ => none

/-- `captures_iter` for the line pattern: scan left to right, at each position
try a match; a successful match is emitted and scanning resumes after it.
The fuel starts at the text length; every step either drops one character or
consumes a whole (nonempty) match, so the fuel never runs out early. -/
def scanLineAux : Nat → List Char → List LineCap
  | 0, _ => []
  | _ + 1, [] => []
  | fuel + 1, c :: rest =>
    match tryLineAt (c :: rest) with
    | some (cap, r) => cap :: scanLineAux fuel r
    | none => scanLineAux fuel rest

def lineScan (s : List Char) : List LineCap := scanLineAux s.length s

/-- `captures_iter` for the quad pattern. -/
def scanQuadAux : Nat → List Char → List QuadCap
  | 0, _ => []
  | _ + 1, [] => []
  | fuel + 1, c :: rest =>
    match tryQuadAt (c :: rest) with
    | some (cap, r) => cap :: scanQuadAux fuel r
    | none => scanQuadAux fuel rest

def quadScan (s : List Char) : List QuadCap := scanQuadAux s.length s

end BlkJson

namespace BlkJson

/-- `struct Point { x: f64, y: f64 }`. -/
structure Point where
  x : FVal
  y : FVal
deriving DecidableEq

/-- `enum Shape` from the source (field names kept; `end` is a Lean keyword,
hence `end_`). -/
inductive Shape where
  | line (name typ : String) (start end_ : Point) (selected : Bool)
  | quad (name typ : String) (pos1 pos2 pos3 pos4 : Point) (selected : Bool)
deriving DecidableEq

def Shape.isLine : Shape → Bool
  | .line .. => true
  | .quad .. => false

def Shape.isQuad : Shape → Bool
  | .line .. => false
  | .quad .. => true

def digitChar (d : Nat) : Char := Char.ofNat ('0'.toNat + d)

/-- Decimal digits of `n`, most significant first (`[]` for `0`);
fuel-driven so that it is structural. -/
def natDigitsAux : Nat → Nat → List Char
  | 0, _ => []
  | _ + 1, 0 => []
  | fuel + 1, n => natDigitsAux fuel (n / 10) ++ [digitChar (n % 10)]

/-- Rust `usize::to_string` (plain decimal, no padding). -/
def natToString (n : Nat) : String :=
  if n = 0 then "0" else String.mk (natDigitsAux n n)

/-- Lexicographic comparison of character lists by code point.  This is the
order in which Rust's `BTreeMap<String, _>` stores keys: Rust compares
`String`s by UTF-8 bytes, and UTF-8 byte order coincides with code-point
order. -/
def listLtC : List Char → List Char → Bool
  | [], [] => false
  | [], _ :: _ => true
  | _ :: _, [] => false
  | a :: as, b :: bs =>
    if a.toNat < b.toNat then true
    else if b.toNat < a.toNat then false
    else listLtC as bs

def strLt (a b : String) : Bool := listLtC a.data b.data

/-- `BTreeMap::insert` on an association list kept sorted by the string key.
An equal key replaces the stored value. -/
def btreeInsert (k : String) (v : Shape) : List (String × Shape) → List (String × Shape)
  | [] => [(k, v)]
  | (k', v') :: t =>
    if strLt k k' then (k, v) :: (k', v') :: t
    else if k = k' then (k, v) :: t
    else (k', v') :: btreeInsert k v t

/-- Insert a list of entries (in order) into an empty `BTreeMap`; the result
is the map's iteration order. -/
def btreeOf (entries : List (String × Shape)) : List (String × Shape) :=
  entries.foldl (fun acc e => btreeInsert e.1 e.2 acc) []

/-- The result of the conversion: shapes keyed by stringified index, in
`BTreeMap` iteration order; a catchable `anyhow` error; or a panic
(an `unwrap` failure or a string-slicing failure — not catchable). -/
inductive PResult where
  | panic
  | error (msg : String)
  | ok (entries : List (String × Shape))
deriving DecidableEq

/-- `split(',')` then `map(|s| s.trim().parse::<f64>().unwrap())`: `none`
models the panic when some piece does not parse. -/
def parsePieces : List (List Char) → Option (List FVal)
  | [] => some []
  | p :: t =>
    match rustParseF64 (trimL p), parsePieces t with
    | some v, some vs => some (v :: vs)
    | _, _ => none

def chString (l : List Char) : String := String.mk l

/-- The body of the `for cap in line_re.captures_iter(..)` loop, processing
the remaining captures with the running index `idx`: trim the coordinate
capture, split on `,`, parse each piece (`unwrap` ⇒ possible panic), require
exactly 4 components (`anyhow` error otherwise), and emit a `Line` entry. -/
def processLines : Nat → List LineCap → PResult
  | _, [] => .ok []
  | idx, cap :: rest =>
    match parsePieces (splitOnComma (trimL cap.coords)) with
    | none => .panic
    | some coords =>
      if coords.length = 4 then
        -- the length test guarantees the indexing below is in range, so the
        -- `.nan` defaults are never used (they stand in for `coords[i]`)
        match processLines (idx + 1) rest with
        | .ok entries =>
          .ok ((natToString idx,
            Shape.line ("Линия" ++ natToString idx) "line"
              ⟨coords.getD 0 .nan, coords.getD 1 .nan⟩
              ⟨coords.getD 2 .nan, coords.getD 3 .nan⟩ false) :: entries)
        | r => r
      else .error ("Invalid line coordinates: " ++ chString (trimL cap.coords))

/-- The body of the quad loop: parse the four corner captures (panic on a bad
piece), require 2 components per corner (`anyhow` error otherwise), and emit
a `Quad` entry. -/
def processQuads : Nat → List QuadCap → PResult
  | _, [] => .ok []
  | idx, cap :: rest =>
    match parsePieces (splitOnComma cap.tl), parsePieces (splitOnComma cap.tr),
          parsePieces (splitOnComma cap.br), parsePieces (splitOnComma cap.bl) with
    | some p1, some p2, some p3, some p4 =>
      if p1.length = 2 ∧ p2.length = 2 ∧ p3.length = 2 ∧ p4.length = 2 then
        -- `any(|p| p.len() != 2)` is false, so the indexing below is in
        -- range and the `.nan` defaults are never used
        match processQuads (idx + 1) rest with
        | .ok entries =>
          .ok ((natToString idx,
            Shape.quad ("Четырёхугольник" ++ natToString idx) "quad"
              ⟨p1.getD 0 .nan, p1.getD 1 .nan⟩ ⟨p2.getD 0 .nan, p2.getD 1 .nan⟩
              ⟨p3.getD 0 .nan, p3.getD 1 .nan⟩ ⟨p4.getD 0 .nan, p4.getD 1 .nan⟩ false) :: entries)
        | r => r
      else .error "Invalid quad coordinates"
    | _, _, _, _ => .panic

/-- The record-parsing part of `parse_input`, applied to the combined text of
the two extracted blocks: the line pass runs first; the quad pass continues
with the index counter left by the line pass; entries are inserted into the
`BTreeMap` as they are produced. -/
def parseRecords (combined : String) : PResult :=
  let lcaps := lineScan combined.data
  match processLines 0 lcaps with
  | .ok lineEntries =>
    match processQuads lcaps.length (quadScan combined.data) with
    | .ok quadEntries => .ok (btreeOf (lineEntries ++ quadEntries))
    | r => r
  | r => r

end BlkJson

namespace BlkJson

/-- Total UTF-8 byte length of a character list. -/
def utf8Len (l : List Char) : Nat := (l.map Char.utf8Size).sum

/-- Convert a byte offset into the UTF-8 encoding of `l` to a character
index; `none` when the offset does not fall on a character boundary. -/
def byteToCharIdx : List Char → Nat → Option Nat
  | _, 0 => some 0
  | [], _ + 1 => none
  | c :: rest, b + 1 =>
    if c.utf8Size ≤ b + 1 then
      (byteToCharIdx rest (b + 1 - c.utf8Size)).map (· + 1)
    else none

/-- Try the block-header pattern `NAME[\s\n]*\{` at the current position
(`NAME` is `regex::escape`d, hence a case-sensitive literal).  On success,
return the number of characters consumed (through the `{`) and the rest. -/
def tryBlockHead (name : List Char) (s : List Char) : Option (Nat × List Char) :=
  match dropLit name s with
  | none => none
  | some r1 =>
    match r1.dropWhile isWs with
    | [] => none
    | c :: r3 =>
      if c = '{' then some (name.length + (r1.takeWhile isWs).length + 1, r3) else none

/-- Leftmost match of the block-header pattern: the character position just
after the `{` of the first matching occurrence, with the rest of the text. -/
def findBlockMatch (name : List Char) : List Char → Option (Nat × List Char)
  | [] => tryBlockHead name []
  | s@(_ :: rest) =>
    match tryBlockHead name s with
    | some pr => some pr
    | none => (findBlockMatch name rest).map (fun pr => (pr.1 + 1, pr.2))

/-- The depth-counting scan of `extract_block`: starting at absolute index
`i` with the given depth, return the index of the `}` where the depth first
reaches zero, or `none` if the input ends first. -/
def braceScan : List Char → Nat → Nat → Option Nat
  | [], _, _ => none
  | c :: rest, i, depth =>
    if c = '{' then braceScan rest (i + 1) (depth + 1)
    else if c = '}' then
      if depth = 1 then some i else braceScan rest (i + 1) (depth - 1)
    else braceScan rest (i + 1) depth

/-- `extract_block` from the source.  The regex match end `start` is a byte
offset, but the source then uses it as a starting index into the `Vec<char>`
(`chars.drop start` here) and, together with the character index `i` at
which the depth reached zero, as byte bounds of the final slice
`text[start..i]`.  `none` models the byte-slicing panic raised when a bound
does not fall on a character boundary. -/
def extract_block (text blockName : String) : Option String :=
  let chars := text.data
  match findBlockMatch blockName.data chars with
  | none => some ""
  | some (p, _) =>
    let start := utf8Len (chars.take p)
    match braceScan (chars.drop start) start 1 with
    | none => some ""
    | some i =>
      match byteToCharIdx chars start, byteToCharIdx chars i with
      | some ks, some ki => some (chString ((chars.drop ks).take (ki - ks)))
      | _, _ => none

/-- The combined text handed to the record passes, or `none` when one of the
two extractions panics. -/
def combinedOf (text : String) : Option String :=
  match extract_block text "drawLines" with
  | none => none
  | some linesBlock =>
    match extract_block text "drawQuads" with
    | none => none
    | some quadsBlock => some (linesBlock ++ "\n" ++ quadsBlock)

/-- `parse_input` from the source: extract the `drawLines` and `drawQuads`
blocks, join them with a newline, run the line pass then the quad pass, and
collect the shapes into the `BTreeMap`. -/
def parse_input (text : String) : PResult :=
  match combinedOf text with
  | none => .panic
  | some c => parseRecords c

/-- The line captures `parse_input` iterates over for a given input. -/
def lineCapsOf (text : String) : List LineCap :=
  match combinedOf text with
  | some c => lineScan c.data
  | none => []

/-- The quad captures `parse_input` iterates over for a given input. -/
def quadCapsOf (text : String) : List QuadCap :=
  match combinedOf text with
  | some c => quadScan c.data
  | none => []

end BlkJson

namespace BlkJson

/-! Specification-side notions, independent of the scanning algorithm, used
to state the claims about `extract_block`. -/

/-- Did the result succeed (a catchable `Ok` with a shape collection)? -/
def PResult.isOk : PResult → Bool
  | .ok _ => true
  | _ => false

/-- The iteration (serialization) order of the produced collection's keys;
junk `[]` for a failed parse. -/
def keysOf : PResult → List String
  | .ok m => m.map Prod.fst
  | _ => []

/-- Numeric reading of a decimal key string. -/
def decodeDec (s : String) : Nat := decDigits s.data

/-- Is the sequence weakly increasing? -/
def ascendingNat : List Nat → Bool
  | [] => true
  | [_] => true
  | a :: b :: t => decide (a ≤ b) && ascendingNat (b :: t)

/-- `u` is a complete block body: its braces are balanced, and no prefix
closes more braces than it opens — so the `}` right after `u` is the matching
closing brace of the `{` right before `u`, at any nesting depth inside. -/
def isMatchedBody (u : List Char) : Prop :=
  u.count '{' = u.count '}' ∧
  ∀ k ≤ u.length, (u.take k).count '}' ≤ (u.take k).count '{'

/-- The braces in `l` (the text following the opening `{`) never balance:
no `}` in `l` matches the opening brace. -/
def NoClose (l : List Char) : Prop :=
  ∀ j < l.length, ¬(l.get? j = some '}' ∧ isMatchedBody (l.take j))

/-- Every character encodes to a single UTF-8 byte — exactly the ASCII
range, where byte offsets and character indices agree. -/
def allAscii (l : List Char) : Prop := ∀ c ∈ l, c.utf8Size = 1

/-- `name` does not occur (as a contiguous character run) anywhere in `l`. -/
def occursNowhere (name l : List Char) : Prop :=
  ∀ i ≤ l.length, (l.drop i).take name.length ≠ name

instance (u : List Char) : Decidable (isMatchedBody u) := by
  unfold isMatchedBody; exact inferInstance

instance (l : List Char) : Decidable (NoClose l) := by
  unfold NoClose; exact inferInstance

instance (l : List Char) : Decidable (allAscii l) := by
  unfold allAscii; exact inferInstance

instance (name l : List Char) : Decidable (occursNowhere name l) := by
  unfold occursNowhere; exact inferInstance

end BlkJson

namespace BlkJson

/-- The spec's scenario input, with its original spacing inside the blocks. -/
def scenarioSpaced : String :=
  "drawLines{ line{line:p4=0,0,5,5;move:b=false;} }\ndrawQuads{ quad{tl:p2=0,0;tr:p2=2,0;br:p2=2,2;bl:p2=0,2;} }"

/-- The two-record scenario input (one line, one quad). -/
def scenarioInput : String :=
  "drawLines{line{line:p4=0,0,5,5;move:b=false;}}\ndrawQuads{quad{tl:p2=0,0;tr:p2=2,0;br:p2=2,2;bl:p2=0,2;}}"

/-- The collection the scenario input parses to. -/
def scenarioEntries : List (String × Shape) :=
  [("0", Shape.line "Линия0" "line"
      ⟨.finite ⟨0, 1⟩, .finite ⟨0, 1⟩⟩ ⟨.finite ⟨5, 1⟩, .finite ⟨5, 1⟩⟩ false),
   ("1", Shape.quad "Четырёхугольник1" "quad"
      ⟨.finite ⟨0, 1⟩, .finite ⟨0, 1⟩⟩ ⟨.finite ⟨2, 1⟩, .finite ⟨0, 1⟩⟩
      ⟨.finite ⟨2, 1⟩, .finite ⟨2, 1⟩⟩ ⟨.finite ⟨0, 1⟩, .finite ⟨2, 1⟩⟩ false)]

/-- An input with eleven line records, so that the collection's keys run from
`"0"` to `"10"`; used to exhibit the `BTreeMap` iteration-order quirk. -/
def elevenLines : String :=
  "drawLines{line{line:p4=0,0,1,1;move:b=true;}line{line:p4=0,0,1,1;move:b=true;}line{line:p4=0,0,1,1;move:b=true;}line{line:p4=0,0,1,1;move:b=true;}line{line:p4=0,0,1,1;move:b=true;}line{line:p4=0,0,1,1;move:b=true;}line{line:p4=0,0,1,1;move:b=true;}line{line:p4=0,0,1,1;move:b=true;}line{line:p4=0,0,1,1;move:b=true;}line{line:p4=0,0,1,1;move:b=true;}line{line:p4=0,0,1,1;move:b=true;}}"

end BlkJson

namespace BlkJson

/-! Order properties of the key comparison `strLt`. -/

theorem char_toNat_inj {a b : Char} (h : a.toNat = b.toNat) : a = b := by
  apply Char.eq_of_val_eq
  apply UInt32.eq_of_val_eq
  exact Fin.ext h

theorem listLtC_irrefl : ∀ l, listLtC l l = false
  | [] => rfl
  | a :: t => by simp [listLtC, listLtC_irrefl t]

theorem listLtC_asymm : ∀ a b, listLtC a b = true → listLtC b a = false := by
  intro a
  induction a with
  | nil =>
    intro b h
    cases b with
    | nil => simp [listLtC] at h
    | cons c t => rfl
  | cons x xs ih =>
    intro b h
    cases b with
    | nil => simp [listLtC] at h
    | cons y ys =>
      simp only [listLtC] at h ⊢
      by_cases h1 : x.toNat < y.toNat
      · have h2 : ¬ y.toNat < x.toNat := by omega
        simp [h1, h2]
      · by_cases h2 : y.toNat < x.toNat
        · simp [h1, h2] at h
        · simp only [if_neg h1, if_neg h2] at h ⊢
          exact ih ys h

theorem listLtC_tri : ∀ a b, listLtC a b = true ∨ a = b ∨ listLtC b a = true := by
  intro a
  induction a with
  | nil =>
    intro b
    cases b with
    | nil => exact .inr (.inl rfl)
    | cons c t => exact .inl rfl
  | cons x xs ih =>
    intro b
    cases b with
    | nil => exact .inr (.inr rfl)
    | cons y ys =>
      by_cases h1 : x.toNat < y.toNat
      · left; simp [listLtC, h1]
      · by_cases h2 : y.toNat < x.toNat
        · right; right; simp [listLtC, h2]
        · have hxy : x = y := char_toNat_inj (by omega)
          subst hxy
          rcases ih ys with h | h | h
          · left; simp [listLtC, h]
          · right; left; rw [h]
          · right; right; simp [listLtC, h]

theorem strLt_irrefl (a : String) : strLt a a = false := listLtC_irrefl _

theorem strLt_asymm {a b : String} (h : strLt a b = true) : strLt b a = false :=
  listLtC_asymm _ _ h

theorem strLt_tri (a b : String) : strLt a b = true ∨ a = b ∨ strLt b a = true := by
  rcases listLtC_tri a.data b.data with h | h | h
  · exact .inl h
  · exact .inr (.inl (String.ext h))
  · exact .inr (.inr h)

theorem strLt_ne {a b : String} (h : strLt a b = true) : a ≠ b := by
  rintro rfl
  rw [strLt_irrefl] at h
  exact Bool.false_ne_true h

end BlkJson

namespace BlkJson

/-! Lemmas about the `BTreeMap` model. -/

theorem btreeInsert_perm (k : String) (v : Shape) :
    ∀ l, k ∉ l.map Prod.fst → List.Perm (btreeInsert k v l) ((k, v) :: l) := by
  intro l
  induction l with
  | nil => intro _; simp [btreeInsert]
  | cons e t ih =>
    intro hk
    obtain ⟨k', v'⟩ := e
    simp only [List.map_cons, List.mem_cons, not_or] at hk
    unfold btreeInsert
    by_cases h1 : strLt k k' = true
    · simp [h1]
    · simp only [if_neg h1, if_neg hk.1]
      exact ((ih hk.2).cons (k', v')).trans (List.Perm.swap (k, v) (k', v') t)

theorem btreeFold_perm : ∀ (E acc : List (String × Shape)),
    ((acc ++ E).map Prod.fst).Nodup →
    List.Perm (E.foldl (fun a e => btreeInsert e.1 e.2 a) acc) (acc ++ E) := by
  intro E
  induction E with
  | nil => intro acc _; simp
  | cons e E' ih =>
    intro acc h
    obtain ⟨k, v⟩ := e
    simp only [List.foldl_cons]
    have hmid0 : List.Perm (acc ++ (k, v) :: E') ((k, v) :: (acc ++ E')) := List.perm_middle
    have hmid : List.Perm ((acc ++ (k, v) :: E').map Prod.fst)
        (k :: (acc ++ E').map Prod.fst) := hmid0.map Prod.fst
    have h' : (k :: (acc ++ E').map Prod.fst).Nodup := hmid.nodup_iff.mp h
    rw [List.nodup_cons, List.map_append, List.mem_append, not_or] at h'
    have hk : k ∉ acc.map Prod.fst := h'.1.1
    have hins : List.Perm (btreeInsert k v acc) ((k, v) :: acc) := btreeInsert_perm k v acc hk
    have hperm2 : List.Perm (btreeInsert k v acc ++ E') (acc ++ (k, v) :: E') :=
      (hins.append_right E').trans List.perm_middle.symm
    have hnodup2 : ((btreeInsert k v acc ++ E').map Prod.fst).Nodup :=
      ((hperm2.map Prod.fst).nodup_iff).mpr h
    exact (ih _ hnodup2).trans hperm2

theorem btreeOf_perm (E : List (String × Shape)) (h : (E.map Prod.fst).Nodup) :
    List.Perm (btreeOf E) E := by
  have := btreeFold_perm E [] (by simpa using h)
  simpa [btreeOf] using this

theorem btreeInsert_chain' (k : String) (v : Shape) :
    ∀ l, ((l.map Prod.fst).Chain' fun a b => strLt a b = true) →
      (((btreeInsert k v l).map Prod.fst).Chain' fun a b => strLt a b = true) := by
  intro l
  induction l with
  | nil => intro _; simp [btreeInsert]
  | cons e t ih =>
    obtain ⟨k', v'⟩ := e
    intro hch
    simp only [List.map_cons] at hch
    rw [List.chain'_cons'] at hch
    unfold btreeInsert
    by_cases h1 : strLt k k' = true
    · simp only [if_pos h1, List.map_cons]
      rw [List.chain'_cons']
      refine ⟨?_, ?_⟩
      · intro y hy
        simp only [List.head?_cons, Option.mem_def, Option.some.injEq] at hy
        subst hy
        exact h1
      · rw [List.chain'_cons']
        exact hch
    · by_cases h2 : k = k'
      · simp only [if_neg h1, if_pos h2, List.map_cons]
        rw [List.chain'_cons']
        subst h2
        exact hch
      · have h3 : strLt k' k = true := by
          rcases strLt_tri k k' with h | h | h
          · exact absurd h h1
          · exact absurd h h2
          · exact h
        simp only [if_neg h1, if_neg h2, List.map_cons]
        rw [List.chain'_cons']
        refine ⟨?_, ih hch.2⟩
        intro y hy
        cases t with
        | nil =>
          simp [btreeInsert] at hy
          subst hy
          exact h3
        | cons e2 t2 =>
          obtain ⟨k2, v2⟩ := e2
          unfold btreeInsert at hy
          by_cases g1 : strLt k k2 = true
          · simp only [if_pos g1, List.map_cons, List.head?_cons,
              Option.mem_def, Option.some.injEq] at hy
            subst hy
            exact h3
          · by_cases g2 : k = k2
            · simp only [if_neg g1, if_pos g2, List.map_cons, List.head?_cons,
                Option.mem_def, Option.some.injEq] at hy
              subst hy
              exact h3
            · simp only [if_neg g1, if_neg g2, List.map_cons, List.head?_cons,
                Option.mem_def, Option.some.injEq] at hy
              subst hy
              exact hch.1 k2 (by simp)

theorem btreeOf_chain' (E : List (String × Shape)) :
    (((btreeOf E).map Prod.fst).Chain' fun a b => strLt a b = true) := by
  have main : ∀ (E acc : List (String × Shape)),
      ((acc.map Prod.fst).Chain' fun a b => strLt a b = true) →
      (((E.foldl (fun a e => btreeInsert e.1 e.2 a) acc).map Prod.fst).Chain'
        fun a b => strLt a b = true) := by
    intro E
    induction E with
    | nil => intro acc h; simpa using h
    | cons e E' ih =>
      intro acc h
      simp only [List.foldl_cons]
      exact ih _ (btreeInsert_chain' e.1 e.2 acc h)
  simpa [btreeOf] using main E [] (by simp)

theorem btreeInsert_append (k : String) (v : Shape) :
    ∀ l, (∀ k' ∈ l.map Prod.fst, strLt k' k = true) →
      btreeInsert k v l = l ++ [(k, v)] := by
  intro l
  induction l with
  | nil => intro _; rfl
  | cons e t ih =>
    obtain ⟨k', v'⟩ := e
    intro h
    have hk' : strLt k' k = true := h k' (by simp)
    have h1 : ¬ strLt k k' = true := by
      rw [strLt_asymm hk']
      exact Bool.false_ne_true
    have h2 : k ≠ k' := (strLt_ne hk').symm
    unfold btreeInsert
    simp only [if_neg h1, if_neg h2, List.cons_append, List.cons.injEq, true_and]
    exact ih fun k'' hk'' => h k'' (by simp [hk''])

theorem btreeFold_increasing : ∀ (E acc : List (String × Shape)),
    (((acc ++ E).map Prod.fst).Pairwise fun a b => strLt a b = true) →
    E.foldl (fun a e => btreeInsert e.1 e.2 a) acc = acc ++ E := by
  intro E
  induction E with
  | nil => intro acc _; simp
  | cons e E' ih =>
    intro acc h
    obtain ⟨k, v⟩ := e
    simp only [List.foldl_cons]
    rw [List.map_append, List.pairwise_append] at h
    have hlt : ∀ k' ∈ acc.map Prod.fst, strLt k' k = true := by
      intro k' hk'
      exact h.2.2 k' hk' k (by simp)
    rw [btreeInsert_append k v acc hlt]
    have harr : ((acc ++ [(k, v)]) ++ E').map Prod.fst =
        (acc ++ (k, v) :: E').map Prod.fst := by simp
    have h' : (((acc ++ [(k, v)]) ++ E').map Prod.fst).Pairwise
        fun a b => strLt a b = true := by
      rw [harr, List.map_append, List.pairwise_append]
      exact h
    rw [ih (acc ++ [(k, v)]) h']
    simp

theorem btreeOf_increasing (E : List (String × Shape))
    (h : ((E.map Prod.fst).Pairwise fun a b => strLt a b = true)) :
    btreeOf E = E := by
  have := btreeFold_increasing E [] (by simpa using h)
  simpa [btreeOf] using this

end BlkJson

namespace BlkJson

/-! Decimal key strings decode back to the index, so distinct indices get
distinct keys. -/

theorem digitVal_digitChar : ∀ d < 10, digitVal (digitChar d) = d := by decide

theorem natDigitsAux_zero : ∀ fuel, natDigitsAux fuel 0 = [] := by
  intro fuel
  cases fuel <;> rfl

theorem decFold_natDigitsAux : ∀ fuel n a, n ≤ fuel → n ≠ 0 →
    List.foldl (fun x c => x * 10 + digitVal c) a (natDigitsAux fuel n) =
      a * 10 ^ (natDigitsAux fuel n).length + n := by
  intro fuel
  induction fuel with
  | zero => intro n a h h0; omega
  | succ f ih =>
    intro n a h h0
    obtain ⟨m, rfl⟩ : ∃ m, n = m + 1 := ⟨n - 1, by omega⟩
    have hstep : natDigitsAux (f + 1) (m + 1) =
        natDigitsAux f ((m + 1) / 10) ++ [digitChar ((m + 1) % 10)] := rfl
    rw [hstep, List.foldl_append, List.foldl_cons, List.foldl_nil, List.length_append,
      List.length_cons, List.length_nil]
    have hd : digitVal (digitChar ((m + 1) % 10)) = (m + 1) % 10 :=
      digitVal_digitChar _ (Nat.mod_lt _ (by omega))
    rw [hd]
    by_cases hq : (m + 1) / 10 = 0
    · rw [hq, natDigitsAux_zero, List.foldl_nil, List.length_nil]
      have hpow : (10 : Nat) ^ (0 + 1) = 10 := by norm_num
      rw [hpow]
      omega
    · have h1 : (m + 1) / 10 ≤ f := by omega
      rw [ih ((m + 1) / 10) a h1 hq]
      have hmod := Nat.div_add_mod (m + 1) 10
      set L := (natDigitsAux f ((m + 1) / 10)).length with hL
      have : (a * 10 ^ L + (m + 1) / 10) * 10 + (m + 1) % 10 =
          a * (10 ^ L * 10) + (10 * ((m + 1) / 10) + (m + 1) % 10) := by ring
      rw [this, ← pow_succ, hmod]

theorem decodeDec_natToString (n : Nat) : decodeDec (natToString n) = n := by
  by_cases h : n = 0
  · subst h; decide
  · unfold natToString decodeDec
    rw [if_neg h]
    have := decFold_natDigitsAux n n 0 (Nat.le_refl n) h
    simpa [decDigits] using this

theorem natToString_inj : Function.Injective natToString := by
  intro a b h
  have := congrArg decodeDec h
  rwa [decodeDec_natToString, decodeDec_natToString] at this

end BlkJson

namespace BlkJson

/-! Characterization of the two record-processing passes. -/

theorem parsePieces_length : ∀ ps vs, parsePieces ps = some vs → vs.length = ps.length := by
  intro ps
  induction ps with
  | nil =>
    intro vs h
    simp only [parsePieces, Option.some.injEq] at h
    subst h
    rfl
  | cons p t ih =>
    intro vs h
    unfold parsePieces at h
    cases h1 : rustParseF64 (trimL p) with
    | none => rw [h1] at h; simp at h
    | some v =>
      rw [h1] at h
      cases h2 : parsePieces t with
      | none => rw [h2] at h; simp at h
      | some vs' =>
        rw [h2] at h
        simp only [Option.some.injEq] at h
        subst h
        simp [ih vs' h2]

theorem processLines_ok : ∀ (caps : List LineCap) (idx : Nat) (entries : List (String × Shape)),
    processLines idx caps = .ok entries →
    entries.map Prod.fst = (List.range caps.length).map (fun j => natToString (idx + j)) ∧
    ∀ e ∈ entries, e.2.isLine = true := by
  intro caps
  induction caps with
  | nil =>
    intro idx entries h
    simp only [processLines, PResult.ok.injEq] at h
    subst h
    simp
  | cons cap rest ih =>
    intro idx entries h
    unfold processLines at h
    cases hp : parsePieces (splitOnComma (trimL cap.coords)) with
    | none => rw [hp] at h; simp at h
    | some coords =>
      rw [hp] at h
      dsimp only at h
      by_cases hlen : coords.length = 4
      · rw [if_pos hlen] at h
        cases hrec : processLines (idx + 1) rest with
        | panic => rw [hrec] at h; simp at h
        | error msg => rw [hrec] at h; simp at h
        | ok entries' =>
          rw [hrec] at h
          simp only [PResult.ok.injEq] at h
          subst h
          obtain ⟨hkeys, hline⟩ := ih (idx + 1) entries' hrec
          constructor
          · rw [List.map_cons, hkeys, List.length_cons, List.range_succ_eq_map,
              List.map_cons, List.map_map]
            congr 1
            apply List.map_congr_left
            intro j hj
            simp only [Function.comp_apply]
            congr 1
            omega
          · intro e he
            rcases List.mem_cons.mp he with he | he
            · subst he; rfl
            · exact hline e he
      · rw [if_neg hlen] at h; simp at h

theorem processQuads_ok : ∀ (caps : List QuadCap) (idx : Nat) (entries : List (String × Shape)),
    processQuads idx caps = .ok entries →
    entries.map Prod.fst = (List.range caps.length).map (fun j => natToString (idx + j)) ∧
    ∀ e ∈ entries, e.2.isQuad = true := by
  intro caps
  induction caps with
  | nil =>
    intro idx entries h
    simp only [processQuads, PResult.ok.injEq] at h
    subst h
    simp
  | cons cap rest ih =>
    intro idx entries h
    unfold processQuads at h
    cases hp1 : parsePieces (splitOnComma cap.tl) with
    | none => rw [hp1] at h; simp at h
    | some p1 =>
    rw [hp1] at h
    cases hp2 : parsePieces (splitOnComma cap.tr) with
    | none => rw [hp2] at h; simp at h
    | some p2 =>
    rw [hp2] at h
    cases hp3 : parsePieces (splitOnComma cap.br) with
    | none => rw [hp3] at h; simp at h
    | some p3 =>
    rw [hp3] at h
    cases hp4 : parsePieces (splitOnComma cap.bl) with
    | none => rw [hp4] at h; simp at h
    | some p4 =>
    rw [hp4] at h
    dsimp only at h
    by_cases harity : p1.length = 2 ∧ p2.length = 2 ∧ p3.length = 2 ∧ p4.length = 2
    · rw [if_pos harity] at h
      cases hrec : processQuads (idx + 1) rest with
      | panic => rw [hrec] at h; simp at h
      | error msg => rw [hrec] at h; simp at h
      | ok entries' =>
        rw [hrec] at h
        simp only [PResult.ok.injEq] at h
        subst h
        obtain ⟨hkeys, hquad⟩ := ih (idx + 1) entries' hrec
        constructor
        · rw [List.map_cons, hkeys, List.length_cons, List.range_succ_eq_map,
            List.map_cons, List.map_map]
          congr 1
          apply List.map_congr_left
          intro j hj
          simp only [Function.comp_apply]
          congr 1
          omega
        · intro e he
          rcases List.mem_cons.mp he with he | he
          · subst he; rfl
          · exact hquad e he
    · rw [if_neg harity] at h; simp at h

theorem processLines_badArity : ∀ (caps : List LineCap) (idx : Nat),
    (∃ cap ∈ caps, (splitOnComma (trimL cap.coords)).length ≠ 4) →
    ∀ entries, processLines idx caps ≠ .ok entries := by
  intro caps
  induction caps with
  | nil =>
    intro idx h entries
    rcases h with ⟨c, hc, _⟩
    simp at hc
  | cons cap rest ih =>
    intro idx h entries hok
    unfold processLines at hok
    cases hp : parsePieces (splitOnComma (trimL cap.coords)) with
    | none => rw [hp] at hok; simp at hok
    | some coords =>
      rw [hp] at hok
      dsimp only at hok
      rcases h with ⟨c, hc, hbad⟩
      rcases List.mem_cons.mp hc with rfl | hcr
      · have hlen := parsePieces_length _ _ hp
        have hne : ¬ coords.length = 4 := by rw [hlen]; exact hbad
        rw [if_neg hne] at hok
        simp at hok
      · by_cases hlen : coords.length = 4
        · rw [if_pos hlen] at hok
          cases hrec : processLines (idx + 1) rest with
          | ok entries' => exact ih (idx + 1) ⟨c, hcr, hbad⟩ entries' hrec
          | error msg => rw [hrec] at hok; simp at hok
          | panic => rw [hrec] at hok; simp at hok
        · rw [if_neg hlen] at hok; simp at hok

theorem processQuads_badArity : ∀ (caps : List QuadCap) (idx : Nat),
    (∃ cap ∈ caps, (splitOnComma cap.tl).length ≠ 2 ∨ (splitOnComma cap.tr).length ≠ 2 ∨
      (splitOnComma cap.br).length ≠ 2 ∨ (splitOnComma cap.bl).length ≠ 2) →
    ∀ entries, processQuads idx caps ≠ .ok entries := by
  intro caps
  induction caps with
  | nil =>
    intro idx h entries
    rcases h with ⟨c, hc, _⟩
    simp at hc
  | cons cap rest ih =>
    intro idx h entries hok
    unfold processQuads at hok
    cases hp1 : parsePieces (splitOnComma cap.tl) with
    | none => rw [hp1] at hok; simp at hok
    | some p1 =>
    rw [hp1] at hok
    cases hp2 : parsePieces (splitOnComma cap.tr) with
    | none => rw [hp2] at hok; simp at hok
    | some p2 =>
    rw [hp2] at hok
    cases hp3 : parsePieces (splitOnComma cap.br) with
    | none => rw [hp3] at hok; simp at hok
    | some p3 =>
    rw [hp3] at hok
    cases hp4 : parsePieces (splitOnComma cap.bl) with
    | none => rw [hp4] at hok; simp at hok
    | some p4 =>
    rw [hp4] at hok
    dsimp only at hok
    rcases h with ⟨c, hc, hbad⟩
    rcases List.mem_cons.mp hc with rfl | hcr
    · have hl1 := parsePieces_length _ _ hp1
      have hl2 := parsePieces_length _ _ hp2
      have hl3 := parsePieces_length _ _ hp3
      have hl4 := parsePieces_length _ _ hp4
      have hne : ¬ (p1.length = 2 ∧ p2.length = 2 ∧ p3.length = 2 ∧ p4.length = 2) := by
        rw [hl1, hl2, hl3, hl4]
        tauto
      rw [if_neg hne] at hok
      simp at hok
    · by_cases harity : p1.length = 2 ∧ p2.length = 2 ∧ p3.length = 2 ∧ p4.length = 2
      · rw [if_pos harity] at hok
        cases hrec : processQuads (idx + 1) rest with
        | ok entries' => exact ih (idx + 1) ⟨c, hcr, hbad⟩ entries' hrec
        | error msg => rw [hrec] at hok; simp at hok
        | panic => rw [hrec] at hok; simp at hok
      · rw [if_neg harity] at hok; simp at hok

theorem processLines_coords : ∀ (caps1 caps2 : List LineCap) (idx : Nat),
    caps1.map LineCap.coords = caps2.map LineCap.coords →
    processLines idx caps1 = processLines idx caps2 := by
  intro caps1
  induction caps1 with
  | nil =>
    intro caps2 idx h
    cases caps2 with
    | nil => rfl
    | cons c2 t2 => simp at h
  | cons c1 t1 ih =>
    intro caps2 idx h
    cases caps2 with
    | nil => simp at h
    | cons c2 t2 =>
      simp only [List.map_cons, List.cons.injEq] at h
      obtain ⟨hc, ht⟩ := h
      show processLines idx (c1 :: t1) = processLines idx (c2 :: t2)
      unfold processLines
      rw [hc, ih t2 (idx + 1) ht]

end BlkJson

namespace BlkJson

/-! Lemmas about the block-header search and the depth-counting scan. -/

theorem dropLit_some : ∀ (name s r : List Char), dropLit name s = some r ↔ s = name ++ r := by
  intro name
  induction name with
  | nil => intro s r; simp [dropLit]
  | cons a la ih =>
    intro s r
    cases s with
    | nil => simp [dropLit]
    | cons b t =>
      simp only [dropLit]
      by_cases hab : a = b
      · subst hab
        simp [ih]
      · simp [hab, if_neg hab, Ne.symm hab]

theorem tryBlockHead_decomp {name s : List Char} {p : Nat} {r : List Char}
    (h : tryBlockHead name s = some (p, r)) :
    ∃ w, s = name ++ w ++ '{' :: r ∧ p = name.length + w.length + 1 := by
  unfold tryBlockHead at h
  cases hd : dropLit name s with
  | none => rw [hd] at h; simp at h
  | some r1 =>
    rw [hd] at h
    dsimp only at h
    cases hw : r1.dropWhile isWs with
    | nil => rw [hw] at h; simp at h
    | cons c r2 =>
      rw [hw] at h
      dsimp only at h
      by_cases hc : c = '{'
      · rw [if_pos hc] at h
        subst hc
        simp only [Option.some.injEq, Prod.mk.injEq] at h
        obtain ⟨hp, hr⟩ := h
        subst hr
        refine ⟨r1.takeWhile isWs, ?_, by omega⟩
        rw [(dropLit_some name s r1).mp hd]
        have hsplit : r1.takeWhile isWs ++ r1.dropWhile isWs = r1 :=
          List.takeWhile_append_dropWhile isWs r1
        rw [List.append_assoc]
        congr 1
        rw [hw] at hsplit
        exact hsplit.symm
      · rw [if_neg hc] at h
        simp at h

theorem findBlockMatch_drop : ∀ (l name : List Char) (p : Nat) (r : List Char),
    findBlockMatch name l = some (p, r) → l.drop p = r ∧ p ≤ l.length := by
  intro l
  induction l with
  | nil =>
    intro name p r h
    simp only [findBlockMatch] at h
    obtain ⟨w, hs, hp⟩ := tryBlockHead_decomp h
    have := congrArg List.length hs
    simp at this
    omega
  | cons c rest ih =>
    intro name p r h
    simp only [findBlockMatch] at h
    cases ht : tryBlockHead name (c :: rest) with
    | some pr =>
      rw [ht] at h
      simp only [Option.some.injEq] at h
      subst h
      obtain ⟨w, hs, hp⟩ := tryBlockHead_decomp ht
      have hslen := congrArg List.length hs
      simp only [List.length_cons, List.length_append] at hslen
      constructor
      · rw [hs, hp]
        have heq : name ++ w ++ '{' :: r = (name ++ w ++ ['{']) ++ r := by simp
        have hlen : (name ++ w ++ ['{']).length = name.length + w.length + 1 := by
          simp only [List.length_append, List.length_cons, List.length_nil]
        rw [heq, ← hlen]
        exact List.drop_left _ _
      · simp only [List.length_cons]
        omega
    | none =>
      rw [ht] at h
      cases hf : findBlockMatch name rest with
      | none => rw [hf] at h; simp at h
      | some pr =>
        rw [hf] at h
        simp only [Option.map_some', Option.some.injEq, Prod.mk.injEq] at h
        obtain ⟨rfl, rfl⟩ := h
        obtain ⟨hdrop, hb⟩ := ih name pr.1 pr.2 (by rw [hf])
        constructor
        · simpa using hdrop
        · simp only [List.length_cons]
          omega

theorem findBlockMatch_occurs : ∀ (l name : List Char) (pr : Nat × List Char),
    findBlockMatch name l = some pr →
    ∃ i ≤ l.length, (l.drop i).take name.length = name := by
  intro l
  induction l with
  | nil =>
    intro name pr h
    simp only [findBlockMatch] at h
    obtain ⟨w, hs, hp⟩ :=
      tryBlockHead_decomp (show tryBlockHead name [] = some (pr.1, pr.2) by rw [h])
    have := congrArg List.length hs
    simp at this
    omega
  | cons c rest ih =>
    intro name pr h
    simp only [findBlockMatch] at h
    cases ht : tryBlockHead name (c :: rest) with
    | some pr2 =>
      obtain ⟨w, hs, hp⟩ :=
        tryBlockHead_decomp (show tryBlockHead name (c :: rest) = some (pr2.1, pr2.2) by
          rw [ht])
      refine ⟨0, by simp, ?_⟩
      rw [List.drop_zero, hs, List.append_assoc]
      exact List.take_left _ _
    | none =>
      rw [ht] at h
      cases hf : findBlockMatch name rest with
      | none => rw [hf] at h; simp at h
      | some pr2 =>
        obtain ⟨i, hi, htake⟩ := ih name pr2 hf
        refine ⟨i + 1, ?_, ?_⟩
        · simp only [List.length_cons]; omega
        · simpa using htake

theorem braceScan_push (l : List Char) (i d : Nat) :
    braceScan ('{' :: l) i d = braceScan l (i + 1) (d + 1) := by
  simp [braceScan]

theorem braceScan_pop (l : List Char) (i d : Nat) (hd : d ≠ 1) :
    braceScan ('}' :: l) i d = braceScan l (i + 1) (d - 1) := by
  simp [braceScan, hd]

theorem braceScan_close (l : List Char) (i : Nat) :
    braceScan ('}' :: l) i 1 = some i := by
  simp [braceScan]

theorem braceScan_skip (c : Char) (l : List Char) (i d : Nat)
    (h1 : c ≠ '{') (h2 : c ≠ '}') :
    braceScan (c :: l) i d = braceScan l (i + 1) d := by
  simp [braceScan, h1, h2]

/-- If `u` keeps the depth positive and closes it exactly at its end, the scan
stops at the `}` right after `u`. -/
theorem braceScan_complete : ∀ (u : List Char) (d : Nat) (rest : List Char) (i : Nat),
    u.count '{' + d = u.count '}' + 1 →
    (∀ k ≤ u.length, (u.take k).count '}' + 1 ≤ (u.take k).count '{' + d) →
    braceScan (u ++ '}' :: rest) i d = some (i + u.length) := by
  intro u
  induction u with
  | nil =>
    intro d rest i hcnt hpre
    have hd : d = 1 := by simp at hcnt; omega
    subst hd
    simpa using braceScan_close rest i
  | cons c u' ih =>
    intro d rest i hcnt hpre
    simp only [List.count_cons, List.length_cons] at hcnt
    by_cases hc1 : c = '{'
    · subst hc1
      rw [List.cons_append, braceScan_push]
      have hcnt' : u'.count '{' + (d + 1) = u'.count '}' + 1 := by
        simp at hcnt
        omega
      have hpre' : ∀ k ≤ u'.length, (u'.take k).count '}' + 1 ≤ (u'.take k).count '{' + (d + 1) := by
        intro k hk
        have := hpre (k + 1) (by simp; omega)
        simp [List.take_succ_cons, List.count_cons] at this
        omega
      rw [ih (d + 1) rest (i + 1) hcnt' hpre']
      congr 1
      simp
      omega
    · by_cases hc2 : c = '}'
      · subst hc2
        have hd2 : 2 ≤ d := by
          have := hpre 1 (by simp)
          simp [List.count_cons] at this
          omega
        rw [List.cons_append, braceScan_pop _ _ _ (by omega)]
        have hcnt' : u'.count '{' + (d - 1) = u'.count '}' + 1 := by
          simp at hcnt
          omega
        have hpre' : ∀ k ≤ u'.length,
            (u'.take k).count '}' + 1 ≤ (u'.take k).count '{' + (d - 1) := by
          intro k hk
          have := hpre (k + 1) (by simp; omega)
          simp [List.take_succ_cons, List.count_cons] at this
          omega
        rw [ih (d - 1) rest (i + 1) hcnt' hpre']
        congr 1
        simp
        omega
      · rw [List.cons_append, braceScan_skip c _ _ _ hc1 hc2]
        have hcnt' : u'.count '{' + d = u'.count '}' + 1 := by
          simp [hc1, hc2] at hcnt
          omega
        have hpre' : ∀ k ≤ u'.length,
            (u'.take k).count '}' + 1 ≤ (u'.take k).count '{' + d := by
          intro k hk
          have := hpre (k + 1) (by simp; omega)
          simp [List.take_succ_cons, List.count_cons, hc1, hc2] at this
          omega
        rw [ih d rest (i + 1) hcnt' hpre']
        congr 1
        simp
        omega

/-- Conversely, a successful scan yields such a decomposition. -/
theorem braceScan_sound : ∀ (l : List Char) (i d j : Nat), 1 ≤ d →
    braceScan l i d = some j →
    ∃ u rest, l = u ++ '}' :: rest ∧ j = i + u.length ∧
      u.count '{' + d = u.count '}' + 1 ∧
      (∀ k ≤ u.length, (u.take k).count '}' + 1 ≤ (u.take k).count '{' + d) := by
  intro l
  induction l with
  | nil => intro i d j _ h; simp [braceScan] at h
  | cons c rest ih =>
    intro i d j hd h
    by_cases hc1 : c = '{'
    · subst hc1
      rw [braceScan_push] at h
      obtain ⟨u, rest', hl, hj, hcnt, hpre⟩ := ih (i + 1) (d + 1) j (by omega) h
      refine ⟨'{' :: u, rest', by rw [List.cons_append, hl], ?_, ?_, ?_⟩
      · simp [hj]; omega
      · simp [List.count_cons]; omega
      · intro k hk
        cases k with
        | zero => simp; omega
        | succ k' =>
          have := hpre k' (by simp at hk; omega)
          simp [List.take_succ_cons, List.count_cons]
          omega
    · by_cases hc2 : c = '}'
      · subst hc2
        by_cases hd1 : d = 1
        · subst hd1
          rw [braceScan_close] at h
          simp only [Option.some.injEq] at h
          subst h
          refine ⟨[], rest, rfl, by simp, by simp, ?_⟩
          intro k hk
          simp at hk
          subst hk
          simp
        · rw [braceScan_pop _ _ _ hd1] at h
          obtain ⟨u, rest', hl, hj, hcnt, hpre⟩ := ih (i + 1) (d - 1) j (by omega) h
          refine ⟨'}' :: u, rest', by rw [List.cons_append, hl], ?_, ?_, ?_⟩
          · simp [hj]; omega
          · simp [List.count_cons]; omega
          · intro k hk
            cases k with
            | zero => simp; omega
            | succ k' =>
              have := hpre k' (by simp at hk; omega)
              simp [List.take_succ_cons, List.count_cons]
              omega
      · rw [braceScan_skip c _ _ _ hc1 hc2] at h
        obtain ⟨u, rest', hl, hj, hcnt, hpre⟩ := ih (i + 1) d j hd h
        refine ⟨c :: u, rest', by rw [List.cons_append, hl], ?_, ?_, ?_⟩
        · simp [hj]; omega
        · simp [List.count_cons, hc1, hc2]; omega
        · intro k hk
          cases k with
          | zero => simp; omega
          | succ k' =>
            have := hpre k' (by simp at hk; omega)
            simp [List.take_succ_cons, List.count_cons, hc1, hc2]
            omega

end BlkJson

namespace BlkJson

/-! ASCII texts: byte offsets agree with character indices. -/

theorem allAscii_take (l : List Char) (n : Nat) (h : allAscii l) : allAscii (l.take n) :=
  fun c hc => h c (List.take_subset n l hc)

theorem allAscii_drop (l : List Char) (n : Nat) (h : allAscii l) : allAscii (l.drop n) :=
  fun c hc => h c (List.drop_subset n l hc)

theorem utf8Len_ascii : ∀ l : List Char, allAscii l → utf8Len l = l.length := by
  intro l
  induction l with
  | nil => intro _; rfl
  | cons c t ih =>
    intro h
    have hc : c.utf8Size = 1 := h c (by simp)
    have ht : allAscii t := fun x hx => h x (by simp [hx])
    simp only [utf8Len, List.map_cons, List.sum_cons, List.length_cons] at *
    rw [hc, ih ht]
    omega

theorem byteToCharIdx_ascii : ∀ (l : List Char) (n : Nat), allAscii l → n ≤ l.length →
    byteToCharIdx l n = some n := by
  intro l
  induction l with
  | nil =>
    intro n _ hn
    have : n = 0 := by simpa using hn
    subst this
    rfl
  | cons c t ih =>
    intro n h hn
    cases n with
    | zero => rfl
    | succ m =>
      have hc : c.utf8Size = 1 := h c (by simp)
      have ht : allAscii t := fun x hx => h x (by simp [hx])
      show (if c.utf8Size ≤ m + 1 then (byteToCharIdx t (m + 1 - c.utf8Size)).map (· + 1)
        else none) = some (m + 1)
      rw [if_pos (by omega)]
      rw [hc]
      have : m + 1 - 1 = m := by omega
      rw [this, ih m ht (by simp at hn; omega)]
      rfl

end BlkJson

namespace BlkJson

/-- A successful `parse_input` decomposes into a successful line pass, a
successful quad pass continuing the index counter, and the `BTreeMap`
collection of their entries. -/
theorem parse_ok_structure : ∀ (text : String) (m : List (String × Shape)),
    parse_input text = .ok m →
    ∃ lE qE, processLines 0 (lineCapsOf text) = .ok lE ∧
      processQuads (lineCapsOf text).length (quadCapsOf text) = .ok qE ∧
      m = btreeOf (lE ++ qE) := by
  intro text m h
  unfold parse_input at h
  cases hc : combinedOf text with
  | none => rw [hc] at h; simp at h
  | some c =>
    rw [hc] at h
    dsimp only at h
    have hlc : lineCapsOf text = lineScan c.data := by unfold lineCapsOf; rw [hc]
    have hqc : quadCapsOf text = quadScan c.data := by unfold quadCapsOf; rw [hc]
    rw [hlc, hqc]
    unfold parseRecords at h
    dsimp only at h
    cases hL : processLines 0 (lineScan c.data) with
    | panic => rw [hL] at h; simp at h
    | error msg => rw [hL] at h; simp at h
    | ok lE =>
      rw [hL] at h
      dsimp only at h
      cases hQ : processQuads (lineScan c.data).length (quadScan c.data) with
      | panic => rw [hQ] at h; simp at h
      | error msg => rw [hQ] at h; simp at h
      | ok qE =>
        rw [hQ] at h
        dsimp only at h
        simp only [PResult.ok.injEq] at h
        exact ⟨lE, qE, rfl, rfl, h.symm⟩

end BlkJson

namespace BlkJson

/-- C7: a record whose coordinate capture splits into the wrong number of
components (4 scalars for a line, 2 per quad corner) makes the whole
conversion fail: no shape collection is produced at all, not even the
records parsed before the failing one.  (When such a record also contains an
unparseable component the failure is the `unwrap` panic instead of the
`anyhow` error, but in both cases no collection is returned.) -/
theorem C7_arity_failure_fatal :
    ∀ (text : String),
      ((∃ cap ∈ lineCapsOf text, (splitOnComma (trimL cap.coords)).length ≠ 4) ∨
       (∃ cap ∈ quadCapsOf text, (splitOnComma cap.tl).length ≠ 2 ∨
          (splitOnComma cap.tr).length ≠ 2 ∨ (splitOnComma cap.br).length ≠ 2 ∨
          (splitOnComma cap.bl).length ≠ 2)) →
      (parse_input text).isOk = false := by
  intro text hbad
  cases hp : parse_input text with
  | panic => rfl
  | error msg => rfl
  | ok m =>
    exfalso
    obtain ⟨lE, qE, hL, hQ, _⟩ := parse_ok_structure text m hp
    rcases hbad with hl | hq
    · exact processLines_badArity _ 0 hl lE hL
    · exact processQuads_badArity _ _ hq qE hQ

/-- C7, witness: a line record with the 3-component coordinate list `1,2,3`
makes the whole parse fail with zero shapes. -/
theorem C7_witness :
    (parse_input "drawLines{line{line:p4=1,2,3;move:b=false;}}").isOk = false :=
  C7_arity_failure_fatal "drawLines{line{line:p4=1,2,3;move:b=false;}}"
    (Or.inl (by decide))

/-- C10: the captured `move:b` boolean is dead data — the produced shapes
depend only on the coordinate captures.  Two inputs whose extracted blocks
yield the same coordinate captures (and the same quad captures), differing
only in the boolean literals, parse to identical results. -/
theorem C10_moveB_no_effect :
    ∀ (t1 t2 c1 c2 : String),
      combinedOf t1 = some c1 → combinedOf t2 = some c2 →
      (lineScan c1.data).map LineCap.coords = (lineScan c2.data).map LineCap.coords →
      quadScan c1.data = quadScan c2.data →
      parse_input t1 = parse_input t2 := by
  intro t1 t2 c1 c2 h1 h2 hlc hqc
  unfold parse_input
  rw [h1, h2]
  dsimp only
  unfold parseRecords
  dsimp only
  have hlen : (lineScan c1.data).length = (lineScan c2.data).length := by
    have := congrArg List.length hlc
    simpa using this
  rw [processLines_coords (lineScan c1.data) (lineScan c2.data) 0 hlc, hqc, hlen]

/-- C10, witness: flipping `move:b=true` to `move:b=false` in a line record
yields the identical parse result. -/
theorem C10_witness :
    parse_input "drawLines{line{line:p4=0,0,1,1;move:b=true;}}" =
      parse_input "drawLines{line{line:p4=0,0,1,1;move:b=false;}}" :=
  C10_moveB_no_effect
    "drawLines{line{line:p4=0,0,1,1;move:b=true;}}"
    "drawLines{line{line:p4=0,0,1,1;move:b=false;}}"
    "line{line:p4=0,0,1,1;move:b=true;}\n"
    "line{line:p4=0,0,1,1;move:b=false;}\n"
    (by decide) (by decide) (by decide) (by decide)

theorem isQuad_not_isLine {s : Shape} (h : s.isQuad = true) : s.isLine = false := by
  cases s with
  | line _ _ _ _ _ => simp [Shape.isQuad] at h
  | quad _ _ _ _ _ _ _ => rfl

/-- The keys of the combined entry list of a successful parse are exactly the
stringified indices `0 .. L+Q-1`, lines first. -/
theorem parse_ok_keys {text : String} {lE qE : List (String × Shape)}
    (hL : processLines 0 (lineCapsOf text) = .ok lE)
    (hQ : processQuads (lineCapsOf text).length (quadCapsOf text) = .ok qE) :
    ((lE ++ qE).map Prod.fst =
      (List.range ((lineCapsOf text).length + (quadCapsOf text).length)).map natToString) := by
  obtain ⟨hLkeys, _⟩ := processLines_ok _ 0 lE hL
  obtain ⟨hQkeys, _⟩ := processQuads_ok _ _ qE hQ
  rw [List.map_append, hLkeys, hQkeys, List.range_add, List.map_append, List.map_map]
  congr 1
  apply List.map_congr_left
  intro j hj
  simp

/-- C6: on a successful parse producing `L` line captures and `Q` quad
captures, the collection has exactly `L + Q` entries, its keys are exactly
the stringified indices `0 .. L+Q-1`, each occurring once, and every index
carrying a line shape is strictly below every index carrying a quad shape. -/
theorem C6_index_assignment :
    ∀ (text : String) (m : List (String × Shape)),
      parse_input text = .ok m →
      m.length = (lineCapsOf text).length + (quadCapsOf text).length ∧
      (m.map Prod.fst).Nodup ∧
      List.Perm (m.map Prod.fst)
        ((List.range ((lineCapsOf text).length + (quadCapsOf text).length)).map natToString) ∧
      (∀ i s, (natToString i, s) ∈ m →
        i < (lineCapsOf text).length + (quadCapsOf text).length ∧
        (s.isLine = true ↔ i < (lineCapsOf text).length)) ∧
      (∀ i j si sj, (natToString i, si) ∈ m → (natToString j, sj) ∈ m →
        si.isLine = true → sj.isQuad = true → i < j) := by
  intro text m h
  obtain ⟨lE, qE, hL, hQ, rfl⟩ := parse_ok_structure text m h
  obtain ⟨hLkeys, hLline⟩ := processLines_ok _ 0 lE hL
  obtain ⟨hQkeys, hQquad⟩ := processQuads_ok _ _ qE hQ
  have hEkeys := parse_ok_keys hL hQ
  have hRnodup :
      (((List.range ((lineCapsOf text).length + (quadCapsOf text).length)).map
        natToString)).Nodup :=
    List.Nodup.map natToString_inj (List.nodup_range _)
  have hNodup : ((lE ++ qE).map Prod.fst).Nodup := by rw [hEkeys]; exact hRnodup
  have hperm : List.Perm (btreeOf (lE ++ qE)) (lE ++ qE) := btreeOf_perm _ hNodup
  have hpermKeys : List.Perm ((btreeOf (lE ++ qE)).map Prod.fst)
      ((List.range ((lineCapsOf text).length + (quadCapsOf text).length)).map natToString) := by
    have := hperm.map Prod.fst
    rwa [hEkeys] at this
  have hLlen : lE.length = (lineCapsOf text).length := by
    have := congrArg List.length hLkeys
    simpa using this
  have hQlen : qE.length = (quadCapsOf text).length := by
    have := congrArg List.length hQkeys
    simpa using this
  have hchar : ∀ i s, (natToString i, s) ∈ btreeOf (lE ++ qE) →
      i < (lineCapsOf text).length + (quadCapsOf text).length ∧
      (s.isLine = true ↔ i < (lineCapsOf text).length) := by
    intro i s hmem
    have hmemE : (natToString i, s) ∈ lE ++ qE := hperm.mem_iff.mp hmem
    rcases List.mem_append.mp hmemE with hin | hin
    · have hkey : natToString i ∈ lE.map Prod.fst :=
        List.mem_map_of_mem Prod.fst hin
      rw [hLkeys] at hkey
      obtain ⟨j, hj, hji⟩ := List.mem_map.mp hkey
      have hij : 0 + j = i := natToString_inj hji
      have hjL : j < (lineCapsOf text).length := List.mem_range.mp hj
      have hiL : i < (lineCapsOf text).length := by omega
      exact ⟨by omega, ⟨fun _ => hiL, fun _ => hLline _ hin⟩⟩
    · have hkey : natToString i ∈ qE.map Prod.fst :=
        List.mem_map_of_mem Prod.fst hin
      rw [hQkeys] at hkey
      obtain ⟨j, hj, hji⟩ := List.mem_map.mp hkey
      have hij : (lineCapsOf text).length + j = i := natToString_inj hji
      have hjQ : j < (quadCapsOf text).length := List.mem_range.mp hj
      have hquad : s.isQuad = true := hQquad _ hin
      have hnotline : s.isLine = false := isQuad_not_isLine hquad
      refine ⟨by omega, ⟨?_, ?_⟩⟩
      · intro hline
        rw [hnotline] at hline
        cases hline
      · intro hiL
        omega
  refine ⟨?_, ?_, hpermKeys, hchar, ?_⟩
  · rw [hperm.length_eq, List.length_append]
    omega
  · exact hpermKeys.nodup_iff.mpr hRnodup
  · intro i j si sj hi hj hline hquad
    have h1 := hchar i si hi
    have h2 := hchar j sj hj
    have hiL : i < (lineCapsOf text).length := h1.2.mp hline
    have hjnot : ¬ j < (lineCapsOf text).length := by
      intro hjL
      have := h2.2.mpr hjL
      rw [isQuad_not_isLine hquad] at this
      cases this
    omega

/-- C6, witness: the two-record scenario input yields a 2-entry collection
with keys `"0"` (the line) and `"1"` (the quad). -/
theorem C6_witness :
    scenarioEntries.length = (lineCapsOf scenarioInput).length + (quadCapsOf scenarioInput).length ∧
    (scenarioEntries.map Prod.fst).Nodup ∧
    List.Perm (scenarioEntries.map Prod.fst)
      ((List.range ((lineCapsOf scenarioInput).length + (quadCapsOf scenarioInput).length)).map
        natToString) ∧
    (∀ i s, (natToString i, s) ∈ scenarioEntries →
      i < (lineCapsOf scenarioInput).length + (quadCapsOf scenarioInput).length ∧
      (s.isLine = true ↔ i < (lineCapsOf scenarioInput).length)) ∧
    (∀ i j si sj, (natToString i, si) ∈ scenarioEntries →
      (natToString j, sj) ∈ scenarioEntries →
      si.isLine = true → sj.isQuad = true → i < j) :=
  C6_index_assignment scenarioInput scenarioEntries (by decide)

/-- C3, amended: the serialization visits the collection in ascending
lexicographic order of the string keys (the `BTreeMap` order); this agrees
with ascending numeric order exactly while every key is a single digit,
i.e. for collections of at most 10 entries, and diverges beyond that (see
the counterexample, where `"10"` is visited before `"2"`). -/
theorem C3_iteration_order :
    (∀ (text : String) (m : List (String × Shape)), parse_input text = .ok m →
      (m.map Prod.fst).Chain' (fun a b => strLt a b = true)) ∧
    (∀ (text : String) (m : List (String × Shape)), parse_input text = .ok m →
      m.length ≤ 10 →
      m.map Prod.fst = (List.range m.length).map natToString) := by
  constructor
  · intro text m h
    obtain ⟨lE, qE, hL, hQ, rfl⟩ := parse_ok_structure text m h
    exact btreeOf_chain' (lE ++ qE)
  · intro text m h h10
    obtain ⟨lE, qE, hL, hQ, rfl⟩ := parse_ok_structure text m h
    have hEkeys := parse_ok_keys hL hQ
    have hRnodup : (((List.range ((lineCapsOf text).length + (quadCapsOf text).length)).map
        natToString)).Nodup :=
      List.Nodup.map natToString_inj (List.nodup_range _)
    have hNodup : ((lE ++ qE).map Prod.fst).Nodup := by rw [hEkeys]; exact hRnodup
    have hperm := btreeOf_perm _ hNodup
    have hElen : (lE ++ qE).length = (lineCapsOf text).length + (quadCapsOf text).length := by
      have h1 := congrArg List.length hEkeys
      simpa using h1
    have hmlen : (btreeOf (lE ++ qE)).length =
        (lineCapsOf text).length + (quadCapsOf text).length := by
      rw [hperm.length_eq, hElen]
    rw [hmlen] at h10
    have hfact : ∀ a, a < 10 → ∀ b, b < 10 → a < b →
        strLt (natToString a) (natToString b) = true := by decide
    have hpair : ((lE ++ qE).map Prod.fst).Pairwise (fun a b => strLt a b = true) := by
      rw [hEkeys, List.pairwise_map]
      refine List.Pairwise.imp_of_mem ?_
        (List.pairwise_lt_range ((lineCapsOf text).length + (quadCapsOf text).length))
      intro a b ha hb hab
      have ha' := List.mem_range.mp ha
      have hb' := List.mem_range.mp hb
      exact hfact a (by omega) b (by omega) hab
    rw [btreeOf_increasing _ hpair, hEkeys]
    rw [btreeOf_increasing _ hpair] at hmlen
    rw [hmlen]

/-- C3, witness: the scenario input's two entries are iterated in ascending
lexicographic order, which (being at most 10 entries) is exactly the
ascending numeric order `"0", "1"`. -/
theorem C3_witness :
    (scenarioEntries.map Prod.fst).Chain' (fun a b => strLt a b = true) ∧
    scenarioEntries.map Prod.fst = (List.range scenarioEntries.length).map natToString :=
  ⟨C3_iteration_order.1 scenarioSpaced scenarioEntries (by decide),
   C3_iteration_order.2 scenarioSpaced scenarioEntries (by decide) (by decide)⟩

end BlkJson

namespace BlkJson

theorem utf8Len_take_ascii {l : List Char} {p : Nat} (h : allAscii l) (hp : p ≤ l.length) :
    utf8Len (l.take p) = p := by
  rw [utf8Len_ascii _ (allAscii_take _ _ h), List.length_take]
  omega

/-- C5, amended: for ASCII text (where the byte offset `mat.end()` and the
character index coincide), if the block-header pattern first matches with
body starting at character position `p`, and the `}` at relative position
`j` is the matching closing brace (the body before it is brace-balanced with
no over-closing prefix — nested balanced pairs of any depth allowed), then
`extract_block` returns exactly the text strictly between the braces.  On
non-ASCII text this fails (see the counterexample). -/
theorem C5_amended_balanced_extraction :
    ∀ (text name : String) (p : Nat) (r : List Char) (j : Nat),
      allAscii text.data →
      findBlockMatch name.data text.data = some (p, r) →
      (text.data.drop p).get? j = some '}' →
      isMatchedBody ((text.data.drop p).take j) →
      extract_block text name = some (chString ((text.data.drop p).take j)) := by
  intro text name p r j hascii hfind hget hbody
  obtain ⟨hdrop, hple⟩ := findBlockMatch_drop text.data name.data p r hfind
  have hjlt : j < (text.data.drop p).length := by
    by_contra hcon
    rw [List.get?_eq_none.mpr (by omega)] at hget
    cases hget
  have hdlen : (text.data.drop p).length = text.data.length - p := List.length_drop _ _
  unfold extract_block
  dsimp only
  rw [hfind]
  dsimp only
  rw [utf8Len_take_ascii hascii hple]
  obtain ⟨hcnt, hpre⟩ := hbody
  have hscan : braceScan (text.data.drop p) p 1 = some (p + j) := by
    have hgetv : (text.data.drop p).get ⟨j, hjlt⟩ = '}' := by
      obtain ⟨hw, hv⟩ := List.get?_eq_some.mp hget
      exact hv
    have hdecomp : text.data.drop p =
        (text.data.drop p).take j ++ '}' :: (text.data.drop p).drop (j + 1) := by
      conv_lhs => rw [← List.take_append_drop j (text.data.drop p)]
      congr 1
      rw [← List.get_cons_drop (text.data.drop p) ⟨j, hjlt⟩, hgetv]
    rw [hdecomp]
    rw [braceScan_complete ((text.data.drop p).take j) 1 ((text.data.drop p).drop (j + 1)) p
      (by omega) (fun k hk => by have := hpre k hk; omega)]
    congr 1
    rw [List.length_take]
    omega
  rw [hscan]
  dsimp only
  rw [byteToCharIdx_ascii _ p hascii (by omega)]
  rw [byteToCharIdx_ascii _ (p + j) hascii (by omega)]
  dsimp only
  have hpj : p + j - p = j := by omega
  rw [hpj]

/-- C5, witness: on the ASCII input `drawLines{a{b}c}x`, the body between
the matching braces — `a{b}c`, containing a nested balanced pair — is
returned exactly. -/
theorem C5_witness :
    extract_block "drawLines\x7ba\x7bb\x7dc\x7dx" "drawLines" =
      some (chString (("drawLines\x7ba\x7bb\x7dc\x7dx".data.drop 10).take 5)) ∧
    chString (("drawLines\x7ba\x7bb\x7dc\x7dx".data.drop 10).take 5) = "a{b}c" :=
  ⟨C5_amended_balanced_extraction "drawLines\x7ba\x7bb\x7dc\x7dx" "drawLines" 10 ("a\x7bb\x7dc\x7dx".data) 5
      (by decide) (by decide) (by decide) (by decide),
   by decide⟩

/-- C9, amended: if the block name does not occur in the text at all,
`extract_block` returns the empty string, on any text; if the pattern
matches but the braces after it never balance, `extract_block` returns the
empty string provided the text is ASCII — with multi-byte characters before
the block the byte/character offset confusion can return a nonempty slice
instead (see the counterexample). -/
theorem C9_amended_absent_or_unterminated :
    (∀ (text name : String), occursNowhere name.data text.data →
      extract_block text name = some "") ∧
    (∀ (text name : String) (p : Nat) (r : List Char),
      allAscii text.data →
      findBlockMatch name.data text.data = some (p, r) →
      NoClose (text.data.drop p) →
      extract_block text name = some "") := by
  constructor
  · intro text name hno
    unfold extract_block
    dsimp only
    cases hf : findBlockMatch name.data text.data with
    | none => rfl
    | some pr =>
      exfalso
      obtain ⟨i, hi, htake⟩ := findBlockMatch_occurs text.data name.data pr hf
      exact hno i hi htake
  · intro text name p r hascii hfind hnc
    obtain ⟨hdrop, hple⟩ := findBlockMatch_drop text.data name.data p r hfind
    unfold extract_block
    dsimp only
    rw [hfind]
    dsimp only
    rw [utf8Len_take_ascii hascii hple]
    cases hscan : braceScan (text.data.drop p) p 1 with
    | none => rfl
    | some i =>
      exfalso
      obtain ⟨u, rest', hl, hj, hcnt, hpre⟩ :=
        braceScan_sound _ p 1 i (by omega) hscan
      have hulen : u.length < (text.data.drop p).length := by
        rw [hl, List.length_append, List.length_cons]
        omega
      have htake : (text.data.drop p).take u.length = u := by
        rw [hl]
        exact List.take_left _ _
      have hget : (text.data.drop p).get? u.length = some '}' := by
        rw [hl, List.get?_append_right (Nat.le_refl u.length)]
        simp
      refine hnc u.length hulen ⟨hget, ?_⟩
      rw [htake]
      exact ⟨by omega, fun k hk => by have := hpre k hk; omega⟩

/-- C9, witness: a text without the block name yields the empty string, and
so does an ASCII text whose block braces never balance
(`drawLines{{}` — the body `{}` leaves one brace open). -/
theorem C9_witness :
    extract_block "no blocks here" "drawLines" = some "" ∧
    extract_block "drawLines\x7b\x7b\x7d" "drawLines" = some "" :=
  ⟨C9_amended_absent_or_unterminated.1 "no blocks here" "drawLines" (by decide),
   C9_amended_absent_or_unterminated.2 "drawLines\x7b\x7b\x7d" "drawLines" 10 ("\x7b\x7d".data)
     (by decide) (by decide) (by decide)⟩

end BlkJson

namespace BlkJson

/-- C1: the claim says a coordinate component that does not parse as a float
makes `parse_records` return a catchable `MalformedCoordinates` error.  The
source instead calls `.parse().unwrap()` (main.rs:89), so on the record
`line{line:p4=a,b,c,d;move:b=true;}` the process panics: the failure is a
panic, not a catchable `Err` value. -/
theorem C1_malformed_coordinates_panics :
    parse_input "drawLines{line{line:p4=a,b,c,d;move:b=true;}}" = .panic := by decide

/-- C2, counterexample: the spaced uppercase record
`LINE { line:p4 = 0,0,1,1 ; move:b=true ; }` does not match the line pattern
at all (the pattern allows whitespace only between the keyword and `{`), so
it parses to zero shapes, while the canonical record parses to one `Line` —
the two inputs do not parse identically. -/
theorem C2_counterexample :
    parse_input "drawLines{LINE { line:p4 = 0,0,1,1 ; move:b=true ; }}" = .ok [] ∧
    parse_input "drawLines{line{line:p4=0,0,1,1;move:b=true;}}" =
      .ok [("0", Shape.line "Линия0" "line"
        ⟨.finite ⟨0, 1⟩, .finite ⟨0, 1⟩⟩ ⟨.finite ⟨1, 1⟩, .finite ⟨1, 1⟩⟩ false)] := by
  constructor
  · decide
  · decide

/-- C2, amended: the tolerance the pattern actually grants — an uppercase
keyword, whitespace between the keyword and `{`, and whitespace inside the
captured coordinate list (trimmed before parsing) — yields exactly the same
parse as the canonical record; whitespace around `=`, before `;`, or after
the record's `{` is not tolerated (see the counterexample). -/
theorem C2_amended_case_tolerance :
    parse_input "drawLines{LINE {line:p4= 0 , 0 , 1 , 1 ;move:b=true;}}" =
      parse_input "drawLines{line{line:p4=0,0,1,1;move:b=true;}}" ∧
    parse_input "drawLines{line{line:p4=0,0,1,1;move:b=true;}}" =
      .ok [("0", Shape.line "Линия0" "line"
        ⟨.finite ⟨0, 1⟩, .finite ⟨0, 1⟩⟩ ⟨.finite ⟨1, 1⟩, .finite ⟨1, 1⟩⟩ false)] := by
  constructor
  · decide
  · decide

/-- C4: the claim says `extract_block` never panics, on any input including
multi-byte text.  But the source uses the regex match end — a byte offset —
as a character index, and the depth-scan position — a character index — as a
byte offset into the string slice (main.rs:53-64).  On `drawLines{é}` the
matching `}` is found at character index 11, and `text[10..11]` splits the
two-byte `é`, so the slice panics. -/
theorem C4_extract_block_panics :
    extract_block "drawLines{é}" "drawLines" = none := by decide

/-- C8: the quad record's four labelled captures are assigned positionally:
`tl` to `pos1`, `tr` to `pos2`, `br` to `pos3`, `bl` to `pos4`, with
`selected = false` (and the generated name and `"quad"` type tag). -/
theorem C8_quad_field_order :
    parse_input "drawQuads{quad{tl:p2=0,0;tr:p2=1,0;br:p2=1,1;bl:p2=0,1;}}" =
      .ok [("0", Shape.quad "Четырёхугольник0" "quad"
        ⟨.finite ⟨0, 1⟩, .finite ⟨0, 1⟩⟩ ⟨.finite ⟨1, 1⟩, .finite ⟨0, 1⟩⟩
        ⟨.finite ⟨1, 1⟩, .finite ⟨1, 1⟩⟩ ⟨.finite ⟨0, 1⟩, .finite ⟨1, 1⟩⟩ false)] := by
  decide

/-- C3, counterexample: with eleven records the parse succeeds, but the
`BTreeMap` iterates its string keys lexicographically, visiting `"10"`
right after `"1"` and before `"2"` — not in ascending numeric order. -/
theorem C3_counterexample :
    (parse_input elevenLines).isOk = true ∧
    keysOf (parse_input elevenLines) =
      ["0", "1", "10", "2", "3", "4", "5", "6", "7", "8", "9"] ∧
    ascendingNat ((keysOf (parse_input elevenLines)).map decodeDec) = false := by
  refine ⟨by decide, by decide, by decide⟩

/-- C5, counterexample: in `xé drawLines{a{b}c}` the block body between the
braces is `a{b}c` (with a balanced nested pair), but because the byte offset
of the match end (14, after the two-byte `é`) is reused as a character index,
the scan starts one character late and the byte slice ends one character
early: `extract_block` returns `a{b}` instead. -/
theorem C5_counterexample :
    ("xé drawLines{a{b}c}".data.drop 13).get? 5 = some '}' ∧
    isMatchedBody (("xé drawLines{a{b}c}".data.drop 13).take 5) ∧
    chString (("xé drawLines{a{b}c}".data.drop 13).take 5) = "a{b}c" ∧
    extract_block "xé drawLines{a{b}c}" "drawLines" = some "a{b}" ∧
    extract_block "xé drawLines{a{b}c}" "drawLines" ≠
      some (chString (("xé drawLines{a{b}c}".data.drop 13).take 5)) := by
  refine ⟨by decide, ⟨by decide, by decide⟩, by decide, by decide, by decide⟩

/-- C9, counterexample: in `é drawLines{{ }` the braces after the first
`drawLines{` never balance (the body is `{ }`: depth never returns to zero),
so the claim requires the empty string; but the byte/character offset
confusion makes the scan start after the inner `{`, see ` }` as closing the
block, and slice out `{`. -/
theorem C9_counterexample :
    (findBlockMatch "drawLines".data "é drawLines\x7b\x7b \x7d".data).map Prod.fst = some 12 ∧
    NoClose ("é drawLines\x7b\x7b \x7d".data.drop 12) ∧
    extract_block "é drawLines\x7b\x7b \x7d" "drawLines" = some "\x7b" ∧
    extract_block "é drawLines\x7b\x7b \x7d" "drawLines" ≠ some "" := by
  refine ⟨by decide, by decide, by decide, by decide⟩

end BlkJson
